import Mathlib

/-!
Verification of the correlation engine of `pyprof/parse/parse.py`.

The per-kernel heuristic block (`main`, lines 94-146), the marker-consumption
loop (lines 151-153) and the marker-reconciler stack search (lines 168-174)
are embedded as executable Lean functions.  Python lists of integers become
`List Int`, the process-wide fold state becomes an explicit `PState` record,
and the `assert` becomes an `Except` error.  Python's `for x in lst` loop with
in-place `lst.remove(x)` is embedded index-faithfully: the iterator keeps an
index that is compared against the *current* length of the mutated list, and
`remove` deletes the first occurrence of the value, exactly as in CPython.
The iterator can take at most `lst.length` steps (each step either advances
past the end or keeps the measure `lst.length - i` decreasing), so the loop is
written with a step budget of `lst.length`, which is provably never exhausted
early and keeps every definition structurally recursive and executable.

Fields of the `Kernel` object that `parse.py` reads but whose initialisation
lives in the (external) `Kernel` class are modelled from the spec: `subSeqId`
defaults to `0`, `altSeqId` starts empty, and `dir` / `op` / `mod` / `callid`
are inputs produced by the external classifier (`setDirection` / `setOp`) and
the trace adapter.
-/

namespace PyProf

/-- Direction token for the forward pass, as compared at parse.py line 114. -/
def fprop : String := "fprop"

/-- Direction token for the backward pass. -/
def bprop : String := "bprop"

/-- Leading `op` token recognised at parse.py line 125. -/
def forwardTok : String := "forward"

/-- Default token standing for an out-of-range leading-token access. -/
def noTok : String := ""

/-- Recurrent-cell module names recognised at parse.py line 126. -/
def rnnCells : List String := ["LSTMCell", "GRUCell", "RNNCell"]

/-- Message of the failed `assert` at parse.py line 113. -/
def assertMsg : String := "AssertionError"

/-- One kernel as seen by the heuristic block: the fields of the `Kernel`
object that parse.py lines 94-153 read.  `dir`, `op`, `mod` and `callid` are
produced by the external classifier and adapter and are inputs here. -/
structure Kernel where
  seqId : List Int
  dir : String
  op : List String
  mod : List String
  callid : List Nat
deriving DecidableEq

/-- The process-wide fold state (parse.py lines 74-76).  `prevOp` is
initialised to the string sentinel `"na"`; since `k.op` is a list of tokens,
the Python comparison `k.op == prevOp` is `False` against the sentinel and
ordinary list equality afterwards, which is exactly `Option` equality against
`none`. -/
structure PState where
  prevSeqId : Int
  prevSubSeqId : Int
  prevOp : Option (List String)
deriving DecidableEq

/-- Initial fold state: `prevSeqId = -1`, `prevSubSeqId = -1`, `prevOp` the
sentinel (parse.py lines 74-76). -/
def initState : PState := ⟨-1, -1, none⟩

/-- The id-related output fields of one emitted kernel record. -/
structure KOut where
  seqId : List Int
  altSeqId : List Int
  subSeqId : Int
deriving DecidableEq

/-- Zero-sentinel pruning (parse.py lines 95-96): if `seqId` holds a non-zero
value and contains `0`, remove the first occurrence of `0` (Python
`list.remove`). -/
def pruneZero (l : List Int) : List Int :=
  if (∃ s ∈ l, s ≠ 0) ∧ 0 ∈ l then l.erase 0 else l

/-- Canonical-id selection (parse.py lines 114-122).  For `fprop` the code
tests whether the *last* element `seqId[-1]` exceeds `prevSeqId` and, if so,
picks the first element in list order exceeding `prevSeqId`; otherwise it
keeps `prevSeqId`.  For the remaining (`bprop`) case it takes `seqId[0]`. -/
def canonicalId (prev : Int) (dir : String) (seq : List Int) : Int :=
  if dir = fprop then
    if prev < seq.getLastD 0 then (seq.filter (fun x => prev < x)).headD 0
    else prev
  else seq.headD 0

/-- Sub-sequence-id assignment (parse.py lines 124-128): increment the
previous sub-sequence id when the canonical id and op repeat, or on the
unfused recurrent-cell exception path; otherwise the field keeps its default
`0`. -/
def subSeqIdOf (st : PState) (curr : Int) (k : Kernel) : Int :=
  if (curr = st.prevSeqId ∧ st.prevOp = some k.op) ∨
      (k.op.headD noTok = forwardTok ∧ st.prevOp = some k.op ∧
        k.mod.headD noTok ∈ rnnCells) then
    st.prevSubSeqId + 1
  else 0

/-- One step budgeted embedding of the Python loop
`for s in k.seqId: if s != currSeqId: k.seqId.remove(s); k.altSeqId.append(s)`
(parse.py lines 135-138).  `i` is the iterator index, checked against the
current length of the mutated list each step, as CPython does. -/
def pyPartitionStep (c : Int) : Nat → Nat → List Int → List Int → List Int × List Int
  | 0, _, lst, alt => (lst, alt)
  | fuel + 1, i, lst, alt =>
    if h : i < lst.length then
      if lst.get ⟨i, h⟩ ≠ c then
        pyPartitionStep c fuel (i + 1) (lst.erase (lst.get ⟨i, h⟩))
          (alt ++ [lst.get ⟨i, h⟩])
      else
        pyPartitionStep c fuel (i + 1) lst alt
    else (lst, alt)

/-- The first partition loop run from index 0 with an empty `altSeqId`
(parse.py lines 134-138); the budget `lst.length` bounds the number of
iterator steps the Python loop can take. -/
def pyPartition (c : Int) (lst : List Int) : List Int × List Int :=
  pyPartitionStep c lst.length 0 lst []

/-- Step budgeted embedding of
`for s in k.altSeqId: if s == currSeqId: k.altSeqId.remove(s)`
(parse.py lines 140-142). -/
def pyRemoveStep (c : Int) : Nat → Nat → List Int → List Int
  | 0, _, lst => lst
  | fuel + 1, i, lst =>
    if h : i < lst.length then
      if lst.get ⟨i, h⟩ = c then
        pyRemoveStep c fuel (i + 1) (lst.erase (lst.get ⟨i, h⟩))
      else
        pyRemoveStep c fuel (i + 1) lst
    else lst

/-- The second loop run from index 0 (parse.py lines 140-142). -/
def pyRemoveAll (c : Int) (lst : List Int) : List Int :=
  pyRemoveStep c lst.length 0 lst

/-- Insert into a sorted list, used to model Python's ascending `sort()`. -/
def insertSorted (x : Int) : List Int → List Int
  | [] => [x]
  | y :: ys => if x ≤ y then x :: y :: ys else y :: insertSorted x ys

/-- Ascending sort.  `list(set(xs))` followed by `.sort()` (parse.py lines
144-146) yields the ascending list of the distinct values of `xs`, which is
`sortInts xs.dedup` (the conditional `if len(...)` guard is a no-op: sorting
the empty list is the empty list). -/
def sortInts (l : List Int) : List Int :=
  l.foldr insertSorted []

/-- `altSeqId` after the second loop, deduplication and sort (parse.py lines
140-146). -/
def altOut (curr : Int) (seq : List Int) : List Int :=
  sortInts (pyRemoveAll curr (pyPartition curr seq).2).dedup

/-- The per-kernel heuristic block of `main` (parse.py lines 94-146): prune
the zero sentinel, and when the (pruned) `seqId` is non-empty assert the
direction, select the canonical id, assign the sub-sequence id, update the
fold state and partition the ids.  A kernel with empty `seqId` is emitted
unchanged and leaves the fold state untouched. -/
def processKernel (st : PState) (k : Kernel) : Except String (PState × KOut) :=
  if pruneZero k.seqId = [] then
    .ok (st, ⟨pruneZero k.seqId, [], 0⟩)
  else if k.dir = fprop ∨ k.dir = bprop then
    .ok (⟨canonicalId st.prevSeqId k.dir (pruneZero k.seqId),
           subSeqIdOf st (canonicalId st.prevSeqId k.dir (pruneZero k.seqId)) k,
           some k.op⟩,
         ⟨(pyPartition (canonicalId st.prevSeqId k.dir (pruneZero k.seqId))
             (pruneZero k.seqId)).1,
           altOut (canonicalId st.prevSeqId k.dir (pruneZero k.seqId))
             (pruneZero k.seqId),
           subSeqIdOf st (canonicalId st.prevSeqId k.dir (pruneZero k.seqId)) k⟩)
  else .error assertMsg

/-- The whole kernel loop (parse.py lines 80-148): process kernels in order,
threading the fold state; a failed assert aborts the run, emitting no record
for the offending kernel nor for any later one. -/
def runKernels (st : PState) : List Kernel → Except String (PState × List KOut)
  | [] => .ok (st, [])
  | k :: ks =>
    match processKernel st k with
    | .error e => .error e
    | .ok (st2, out) =>
      match runKernels st2 ks with
      | .error e => .error e
      | .ok (st3, outs) => .ok (st3, out :: outs)

/-- Marker consumption by one kernel (parse.py lines 151-153):
`for callid in k.callid: if callid in markers: markers.pop(callid)`,
on the key set of the marker dictionary. -/
def consumeIds (pool : List Nat) (cs : List Nat) : List Nat :=
  cs.foldl (fun p c => if c ∈ p then p.erase c else p) pool

/-- Marker consumption over the whole kernel loop: each processed kernel pops
its `callid`s from the marker pool. -/
def consumeRun (pool : List Nat) (ks : List Kernel) : List Nat :=
  ks.foldl (fun p k => consumeIds p k.callid) pool

/-- The marker ids consumed by at least one kernel of the run. -/
def consumedIds (pool : List Nat) (ks : List Kernel) : List Nat :=
  pool.filter (fun c => ks.any (fun k => decide (c ∈ k.callid)))

/-- One encapsulating-marker payload as the reconciler reads it: the payload
either carries a call-stack snapshot (`funcStack` key) or not.  The raw
textual payload and its dynamic deserialization live in the external adapter;
only the presence and value of the snapshot matter to lines 168-174. -/
structure MarkerInfo where
  funcStack : Option (List String)
deriving DecidableEq

/-- Loop body of the reconciler's stack search (parse.py lines 170-174): a
payload carrying a snapshot overwrites the accumulator. -/
def stackStep (acc : List String) (m : MarkerInfo) : List String :=
  match m.funcStack with
  | some fs => fs
  | none => acc

/-- The reconciler's stack search (parse.py lines 169-174): `marker_fn`
starts empty and every encapsulating marker carrying a `funcStack` overwrites
it, so the loop keeps the last snapshot of the sequence. -/
def reconcileStack (ems : List MarkerInfo) : List String :=
  ems.foldl stackStep []

/-! ### Helper lemmas -/

theorem getLastD_mem : ∀ (l : List Int) (d : Int), l ≠ [] → l.getLastD d ∈ l := by
  intro l
  induction l with
  | nil => intro d h; exact absurd rfl h
  | cons a t ih =>
    intro d _
    rw [List.getLastD_cons]
    cases t with
    | nil => exact List.mem_cons_self a []
    | cons b t2 => exact List.mem_cons_of_mem a (ih a (by simp))

theorem mem_le_getLastD :
    ∀ (l : List Int), l.Pairwise (· ≤ ·) → ∀ x ∈ l, ∀ d, x ≤ l.getLastD d := by
  intro l
  induction l with
  | nil => intro _ x hx; exact absurd hx (List.not_mem_nil x)
  | cons a t ih =>
    intro hp x hx d
    rw [List.getLastD_cons]
    rcases List.mem_cons.mp hx with rfl | hxt
    · cases t with
      | nil => simp [List.getLastD]
      | cons b t2 =>
        have hab : x ≤ b := (List.pairwise_cons.mp hp).1 b (List.mem_cons_self b t2)
        have hb := ih (List.pairwise_cons.mp hp).2 b (List.mem_cons_self b t2) x
        exact le_trans hab hb
    · exact ih (List.pairwise_cons.mp hp).2 x hxt a

theorem filter_headD_spec (p : Int → Bool) (l : List Int) (hp : l.Pairwise (· ≤ ·))
    (hx : ∃ x ∈ l, p x = true) :
    (l.filter p).headD 0 ∈ l ∧ p ((l.filter p).headD 0) = true ∧
      ∀ y ∈ l, p y = true → (l.filter p).headD 0 ≤ y := by
  obtain ⟨x, hxl, hpx⟩ := hx
  have hxf : x ∈ l.filter p := List.mem_filter.mpr ⟨hxl, hpx⟩
  cases hf : l.filter p with
  | nil => rw [hf] at hxf; exact absurd hxf (List.not_mem_nil x)
  | cons h t =>
    have hh : h ∈ l.filter p := by rw [hf]; exact List.mem_cons_self h t
    have hhl := List.mem_filter.mp hh
    refine ⟨hhl.1, hhl.2, ?_⟩
    intro y hy hpy
    have hyf : y ∈ l.filter p := List.mem_filter.mpr ⟨hy, hpy⟩
    rw [hf] at hyf
    have hpf : (l.filter p).Pairwise (· ≤ ·) := hp.filter p
    rw [hf] at hpf
    rcases List.mem_cons.mp hyf with rfl | hyt
    · exact le_refl y
    · exact (List.pairwise_cons.mp hpf).1 y hyt

theorem pyPartitionStep_forall (c : Int) (P : Int → Prop) :
    ∀ (fuel i : Nat) (lst alt : List Int),
      (∀ x ∈ lst, P x) → (∀ x ∈ alt, P x) →
      (∀ x ∈ (pyPartitionStep c fuel i lst alt).1, P x) ∧
        (∀ x ∈ (pyPartitionStep c fuel i lst alt).2, P x) := by
  intro fuel
  induction fuel with
  | zero => intro i lst alt h1 h2; exact ⟨h1, h2⟩
  | succ n ih =>
    intro i lst alt h1 h2
    rw [pyPartitionStep]
    split
    · split
      · apply ih
        · intro x hx; exact h1 x (List.mem_of_mem_erase hx)
        · intro x hx
          rcases List.mem_append.mp hx with hxa | hxs
          · exact h2 x hxa
          · rw [List.mem_singleton.mp hxs]; exact h1 _ (lst.get_mem ..)
      · exact ih (i + 1) lst alt h1 h2
    · exact ⟨h1, h2⟩

theorem pyRemoveStep_forall (c : Int) (P : Int → Prop) :
    ∀ (fuel i : Nat) (lst : List Int), (∀ x ∈ lst, P x) →
      ∀ x ∈ pyRemoveStep c fuel i lst, P x := by
  intro fuel
  induction fuel with
  | zero => intro i lst h1; exact h1
  | succ n ih =>
    intro i lst h1
    rw [pyRemoveStep]
    split
    · split
      · exact ih (i + 1) _ (fun x hx => h1 x (List.mem_of_mem_erase hx))
      · exact ih (i + 1) lst h1
    · exact h1

theorem mem_insertSorted (x y : Int) :
    ∀ l : List Int, (y ∈ insertSorted x l ↔ y = x ∨ y ∈ l) := by
  intro l
  induction l with
  | nil => simp [insertSorted]
  | cons a t ih =>
    rw [insertSorted]
    split
    · simp
    · simp only [List.mem_cons, ih]
      tauto

theorem mem_sortInts (y : Int) : ∀ l : List Int, (y ∈ sortInts l ↔ y ∈ l) := by
  intro l
  induction l with
  | nil => simp [sortInts]
  | cons a t ih =>
    show y ∈ insertSorted a (sortInts t) ↔ _
    rw [mem_insertSorted, ih]
    simp

theorem pruneZero_subset {l : List Int} : ∀ x ∈ pruneZero l, x ∈ l := by
  intro x hx
  unfold pruneZero at hx
  split at hx
  · exact List.mem_of_mem_erase hx
  · exact hx

theorem pruneZero_eq_nil {l : List Int} : pruneZero l = [] ↔ l = [] := by
  constructor
  · intro h
    unfold pruneZero at h
    split at h
    · rename_i hg
      obtain ⟨⟨s, hs, hs0⟩, _⟩ := hg
      have : s ∈ l.erase 0 := (List.mem_erase_of_ne hs0).mpr hs
      rw [h] at this
      exact absurd this (List.not_mem_nil s)
    · exact h
  · intro h; rw [h]; rfl

theorem processKernel_empty (st : PState) (k : Kernel)
    (hz : pruneZero k.seqId = []) :
    processKernel st k = .ok (st, ⟨pruneZero k.seqId, [], 0⟩) := by
  unfold processKernel
  rw [if_pos hz]

theorem processKernel_nonempty (st : PState) (k : Kernel) (st2 : PState) (out : KOut)
    (hne : pruneZero k.seqId ≠ [])
    (hok : processKernel st k = .ok (st2, out)) :
    (k.dir = fprop ∨ k.dir = bprop) ∧
    st2 = ⟨canonicalId st.prevSeqId k.dir (pruneZero k.seqId),
            subSeqIdOf st (canonicalId st.prevSeqId k.dir (pruneZero k.seqId)) k,
            some k.op⟩ ∧
    out = ⟨(pyPartition (canonicalId st.prevSeqId k.dir (pruneZero k.seqId))
              (pruneZero k.seqId)).1,
            altOut (canonicalId st.prevSeqId k.dir (pruneZero k.seqId))
              (pruneZero k.seqId),
            subSeqIdOf st (canonicalId st.prevSeqId k.dir (pruneZero k.seqId)) k⟩ := by
  unfold processKernel at hok
  rw [if_neg hne] at hok
  by_cases hd : k.dir = fprop ∨ k.dir = bprop
  · rw [if_pos hd] at hok
    have := Prod.mk.injEq .. ▸ Except.ok.inj hok
    exact ⟨hd, this.1.symm, this.2.symm⟩
  · rw [if_neg hd] at hok
    exact absurd hok (by simp)

theorem consumeIds_spec :
    ∀ (cs pool : List Nat), pool.Nodup →
      (∀ c, c ∈ consumeIds pool cs ↔ c ∈ pool ∧ c ∉ cs) ∧
        (consumeIds pool cs).Nodup := by
  intro cs
  induction cs with
  | nil =>
    intro pool hnd
    refine ⟨fun c => ?_, hnd⟩
    simp [consumeIds]
  | cons d cs ih =>
    intro pool hnd
    have hstep : consumeIds pool (d :: cs) =
        consumeIds (if d ∈ pool then pool.erase d else pool) cs := rfl
    have hnd2 : (if d ∈ pool then pool.erase d else pool).Nodup := by
      split
      · exact hnd.erase d
      · exact hnd
    have hmem : ∀ c, c ∈ (if d ∈ pool then pool.erase d else pool) ↔
        c ∈ pool ∧ c ≠ d := by
      intro c
      split
      · rw [hnd.mem_erase_iff]; tauto
      · rename_i hd
        constructor
        · intro hc
          refine ⟨hc, ?_⟩
          intro h; rw [h] at hc; exact hd hc
        · exact fun h => h.1
    obtain ⟨ihmem, ihnd⟩ := ih _ hnd2
    rw [hstep]
    refine ⟨fun c => ?_, ihnd⟩
    rw [ihmem c, hmem c, List.mem_cons]
    tauto

theorem consumeRun_spec :
    ∀ (ks : List Kernel) (pool : List Nat), pool.Nodup →
      ∀ c, c ∈ consumeRun pool ks ↔ c ∈ pool ∧ ∀ k ∈ ks, c ∉ k.callid := by
  intro ks
  induction ks with
  | nil =>
    intro pool _ c
    simp [consumeRun]
  | cons k ks ih =>
    intro pool hnd c
    have hstep : consumeRun pool (k :: ks) = consumeRun (consumeIds pool k.callid) ks := rfl
    obtain ⟨hmem, hnd2⟩ := consumeIds_spec k.callid pool hnd
    rw [hstep, ih _ hnd2 c, hmem c]
    simp only [List.mem_cons]
    constructor
    · rintro ⟨⟨hp, hnk⟩, hall⟩
      refine ⟨hp, ?_⟩
      rintro k2 (rfl | hk2)
      · exact hnk
      · exact hall k2 hk2
    · rintro ⟨hp, hall⟩
      exact ⟨⟨hp, hall k (Or.inl rfl)⟩, fun k2 hk2 => hall k2 (Or.inr hk2)⟩

theorem foldl_stackStep :
    ∀ (ems : List MarkerInfo) (acc : List String),
      ems.foldl stackStep acc = (ems.filterMap MarkerInfo.funcStack).getLastD acc := by
  intro ems
  induction ems with
  | nil => intro acc; rfl
  | cons m t ih =>
    intro acc
    cases hm : m.funcStack with
    | some fs =>
      have h1 : List.foldl stackStep acc (m :: t) = List.foldl stackStep fs t := by
        simp [List.foldl_cons, stackStep, hm]
      rw [h1, ih fs, List.filterMap_cons, hm, List.getLastD_cons]
    | none =>
      have h1 : List.foldl stackStep acc (m :: t) = List.foldl stackStep acc t := by
        simp [List.foldl_cons, stackStep, hm]
      rw [h1, ih acc, List.filterMap_cons, hm]

theorem headD_mem {l : List Int} (h : l ≠ []) : l.headD 0 ∈ l := by
  cases l with
  | nil => exact absurd rfl h
  | cons a t => exact List.mem_cons_self a t

theorem pyPartition_forall (c : Int) (P : Int → Prop) (lst : List Int)
    (h : ∀ x ∈ lst, P x) :
    (∀ x ∈ (pyPartition c lst).1, P x) ∧ (∀ x ∈ (pyPartition c lst).2, P x) :=
  pyPartitionStep_forall c P lst.length 0 lst [] h (by simp)

theorem pyRemoveAll_forall (c : Int) (P : Int → Prop) (lst : List Int)
    (h : ∀ x ∈ lst, P x) : ∀ x ∈ pyRemoveAll c lst, P x :=
  pyRemoveStep_forall c P lst.length 0 lst h

/-! ### Claim theorems -/

/-- C1, counterexample: with `prevSeqId = 3`, direction `fprop` and
`seqId = [7, 5]`, the set of candidates exceeding 3 is `{7, 5}` with minimum
5, yet the code selects 7 — the first element in list order, not the minimum
— so the selection is not order-independent and is not `min(candidates)`. -/
theorem canonicalId_counterexample :
    canonicalId 3 fprop [7, 5] = 7 ∧
      5 ∈ ([7, 5] : List Int) ∧ (3:Int) < 5 ∧
      (∀ s ∈ ([7, 5] : List Int), 3 < s → (5:Int) ≤ s) ∧
      canonicalId 3 fprop [7, 5] ≠ 5 := by
  decide

/-- C1, amended: the code tests whether the last element of `seqId` exceeds
`prevSeqId` and then picks the first element in list order exceeding it,
falling back to `prevSeqId`.  When `seqId` is ascending (the monotonic
advance the heuristic assumes), this coincides with the claim: if some
element exceeds `prevSeqId` the selected canonical id is the least such
element, and otherwise the canonical id is `prevSeqId`. -/
theorem canonicalId_fprop_sorted (prev : Int) (seq : List Int)
    (hne : seq ≠ []) (hs : seq.Pairwise (· ≤ ·)) :
    ((∃ s ∈ seq, prev < s) →
      canonicalId prev fprop seq ∈ seq ∧ prev < canonicalId prev fprop seq ∧
        ∀ s ∈ seq, prev < s → canonicalId prev fprop seq ≤ s) ∧
    ((∀ s ∈ seq, ¬ prev < s) → canonicalId prev fprop seq = prev) := by
  unfold canonicalId
  rw [if_pos rfl]
  constructor
  · rintro ⟨s, hsl, hps⟩
    have hlast : prev < seq.getLastD 0 :=
      lt_of_lt_of_le hps (mem_le_getLastD seq hs s hsl 0)
    rw [if_pos hlast]
    have hspec := filter_headD_spec (fun x => prev < x) seq hs
      ⟨s, hsl, decide_eq_true hps⟩
    refine ⟨hspec.1, of_decide_eq_true hspec.2.1, ?_⟩
    intro y hy hpy
    exact hspec.2.2 y hy (decide_eq_true hpy)
  · intro hall
    rw [if_neg (hall _ (getLastD_mem seq 0 hne))]

/-- C1 witness: `prevSeqId = 3`, ascending `seqId = [5, 7]`: the canonical id
is in the list, exceeds 3 and is least among the candidates (it is 5). -/
theorem canonicalId_fprop_sorted_witness :
    canonicalId 3 fprop [5, 7] ∈ ([5, 7] : List Int) ∧
      (3:Int) < canonicalId 3 fprop [5, 7] ∧
      ∀ s ∈ ([5, 7] : List Int), 3 < s → canonicalId 3 fprop [5, 7] ≤ s :=
  (canonicalId_fprop_sorted 3 [5, 7] (by decide) (by decide)).1
    ⟨5, by decide, by decide⟩

/-- C2: the partition loop removes elements from the list it is iterating,
so the iterator skips the element after each removal: on the reachable run
with kernels `seqId = [0]` then `seqId = [1, 2, 3]` (both `fprop`), the second
kernel's canonical id is 1, yet the emitted record keeps `seqId = [1, 3]` and
moves only 2 into `altSeqId`, contradicting the documented partition
(`seqId` reduced to the canonical id, everything else moved). -/
theorem partition_code_bug :
    runKernels initState
        [⟨[0], fprop, ["x"], ["M"], []⟩, ⟨[1, 2, 3], fprop, ["y"], ["M"], []⟩] =
      .ok (⟨1, 0, some ["y"]⟩, [⟨[0], [], 0⟩, ⟨[1, 3], [2], 0⟩]) ∧
    ([1, 3] : List Int) ≠ [1] ∧ (3:Int) ∉ ([2] : List Int) :=
  ⟨rfl, by decide, by decide⟩

/-- C3, counterexample: zero pruning removes only the first occurrence of 0
(Python `list.remove`), so with pre-pruning `seqId = [5, 0, 0]` (reachable
after a kernel with `seqId = [2]`) a zero survives: the emitted `bprop`
record has canonical id 5 (non-zero) and `altSeqId = [0]`. -/
theorem pruneZero_counterexample :
    pruneZero [5, 0, 0] = [5, 0] ∧
    runKernels initState
        [⟨[2], fprop, ["x"], ["M"], []⟩, ⟨[5, 0, 0], bprop, ["y"], ["M"], []⟩] =
      .ok (⟨5, 0, some ["y"]⟩, [⟨[2], [], 0⟩, ⟨[5], [0], 0⟩]) ∧
    (0:Int) ∈ ([0] : List Int) ∧ (5:Int) ≠ 0 :=
  ⟨by decide, rfl, by decide, by decide⟩

/-- C3, amended: pruning drops exactly one occurrence of zero, so whenever
the pre-pruning `seqId` contains exactly one zero together with a non-zero
value, the emitted record's `seqId` and `altSeqId` contain no 0 at all (and
in particular no 0 coexisting with a non-zero canonical id). -/
theorem no_zero_single (st : PState) (k : Kernel) (st2 : PState) (out : KOut)
    (h1 : k.seqId.count 0 = 1) (h2 : ∃ s ∈ k.seqId, s ≠ 0)
    (hok : processKernel st k = .ok (st2, out)) :
    (0:Int) ∉ out.seqId ∧ (0:Int) ∉ out.altSeqId := by
  have h0mem : (0:Int) ∈ k.seqId := List.count_pos_iff.mp (by rw [h1]; exact Nat.one_pos)
  have hz : pruneZero k.seqId = k.seqId.erase 0 := by
    unfold pruneZero
    rw [if_pos ⟨h2, h0mem⟩]
  have hnz : (0:Int) ∉ pruneZero k.seqId := by
    rw [hz]
    intro hmem
    have hcount : (k.seqId.erase 0).count 0 = 0 := by
      rw [List.count_erase_self, h1]
    exact (List.count_eq_zero.mp hcount) hmem
  have hP : ∀ x ∈ pruneZero k.seqId, x ≠ 0 := fun x hx h => hnz (h ▸ hx)
  by_cases hzz : pruneZero k.seqId = []
  · rw [processKernel_empty st k hzz] at hok
    have h := Prod.mk.injEq .. ▸ Except.ok.inj hok
    rw [← h.2]
    exact ⟨hnz, by simp⟩
  · obtain ⟨_, _, ho⟩ := processKernel_nonempty st k st2 out hzz hok
    rw [ho]
    constructor
    · intro hmem
      exact (pyPartition_forall _ (fun x => x ≠ 0) _ hP).1 0 hmem rfl
    · intro hmem
      unfold altOut at hmem
      rw [mem_sortInts, List.mem_dedup] at hmem
      exact pyRemoveAll_forall _ (fun x => x ≠ 0) _
        (pyPartition_forall _ (fun x => x ≠ 0) _ hP).2 0 hmem rfl

/-- C3 witness: `prevSeqId = 3`, pre-pruning `seqId = [0, 5]` (one zero, one
non-zero): the emitted record's `seqId = [5]` and `altSeqId = []` hold no 0. -/
theorem no_zero_single_witness :
    (0:Int) ∉ ([5] : List Int) ∧ (0:Int) ∉ ([] : List Int) :=
  no_zero_single ⟨3, 0, none⟩ ⟨[0, 5], fprop, ["y"], ["M"], []⟩ ⟨5, 0, some ["y"]⟩
    ⟨[5], [], 0⟩ (by decide) ⟨5, by decide, by decide⟩ rfl

/-- C4: for a processed kernel with non-empty `seqId`, `subSeqId` is
`prevSubSeqId + 1` when the canonical id and op repeat or on the
recurrent-cell exception path, and keeps its default 0 otherwise; hence in a
chain of three processed kernels where the second repeats the first's
canonical id and op, the second's `subSeqId` is the first's plus one, and a
third kernel with a different op gets `subSeqId = 0`. -/
theorem subSeqId_rule (st : PState) (k1 k2 k3 : Kernel) (st1 st2 st3 : PState)
    (o1 o2 o3 : KOut)
    (hne1 : pruneZero k1.seqId ≠ []) (h1 : processKernel st k1 = .ok (st1, o1))
    (hne2 : pruneZero k2.seqId ≠ []) (h2 : processKernel st1 k2 = .ok (st2, o2))
    (hne3 : pruneZero k3.seqId ≠ []) (h3 : processKernel st2 k3 = .ok (st3, o3))
    (hcan : canonicalId st1.prevSeqId k2.dir (pruneZero k2.seqId) = st1.prevSeqId)
    (hop : k2.op = k1.op) (hop3 : k3.op ≠ k2.op) :
    (o1.subSeqId =
      if (canonicalId st.prevSeqId k1.dir (pruneZero k1.seqId) = st.prevSeqId ∧
            st.prevOp = some k1.op) ∨
          (k1.op.headD noTok = forwardTok ∧ st.prevOp = some k1.op ∧
            k1.mod.headD noTok ∈ rnnCells)
        then st.prevSubSeqId + 1 else 0) ∧
    o2.subSeqId = o1.subSeqId + 1 ∧
    o3.subSeqId = 0 := by
  obtain ⟨_, hst1, ho1⟩ := processKernel_nonempty st k1 st1 o1 hne1 h1
  obtain ⟨_, hst2, ho2⟩ := processKernel_nonempty st1 k2 st2 o2 hne2 h2
  obtain ⟨_, hst3, ho3⟩ := processKernel_nonempty st2 k3 st3 o3 hne3 h3
  have e1 : st1.prevOp = some k1.op := by rw [hst1]
  have e2 : st1.prevSubSeqId = o1.subSeqId := by rw [hst1, ho1]
  have e4 : st2.prevOp = some k2.op := by rw [hst2]
  refine ⟨?_, ?_, ?_⟩
  · rw [ho1]
    rfl
  · rw [ho2]
    show subSeqIdOf st1 _ k2 = _
    unfold subSeqIdOf
    rw [if_pos (Or.inl ⟨hcan, by rw [e1, hop]⟩), e2]
  · rw [ho3]
    show subSeqIdOf st2 _ k3 = 0
    unfold subSeqIdOf
    rw [if_neg ?_]
    rintro (⟨_, h⟩ | ⟨_, h, _⟩) <;>
      exact hop3 (Option.some.inj (e4.symm.trans h)).symm

/-- C4 witness: three consecutive `fprop` kernels with `seqId = [7]`; the
first gets `subSeqId = 0`, the second (same canonical id 7 and same op) gets
`subSeqId = 1 = 0 + 1`, the third (different op) gets `subSeqId = 0`. -/
theorem subSeqId_rule_witness :
    ((0:Int) =
      if (canonicalId initState.prevSeqId fprop (pruneZero [7]) =
            initState.prevSeqId ∧ initState.prevOp = some ["opA"]) ∨
          (("opA") = forwardTok ∧ initState.prevOp = some ["opA"] ∧
            ("M") ∈ rnnCells)
        then initState.prevSubSeqId + 1 else 0) ∧
    (1:Int) = 0 + 1 ∧ (0:Int) = 0 :=
  subSeqId_rule initState
    ⟨[7], fprop, ["opA"], ["M"], []⟩ ⟨[7], fprop, ["opA"], ["M"], []⟩
    ⟨[7], fprop, ["opB"], ["M"], []⟩
    ⟨7, 0, some ["opA"]⟩ ⟨7, 1, some ["opA"]⟩ ⟨7, 0, some ["opB"]⟩
    ⟨[7], [], 0⟩ ⟨[7], [], 1⟩ ⟨[7], [], 0⟩
    (by decide) rfl (by decide) rfl (by decide) rfl
    (by decide) rfl (by decide)

/-- C5: for a processed kernel with non-empty `seqId` classified `bprop`, the
canonical id recorded into the fold state is the head of `seqId` in stack
order (it is an element of `seqId`), regardless of numeric ordering. -/
theorem bprop_head_canonical (st : PState) (k : Kernel) (st2 : PState) (out : KOut)
    (hne : pruneZero k.seqId ≠ []) (hdir : k.dir = bprop)
    (hok : processKernel st k = .ok (st2, out)) :
    st2.prevSeqId = (pruneZero k.seqId).headD 0 ∧
      (pruneZero k.seqId).headD 0 ∈ pruneZero k.seqId := by
  obtain ⟨_, hst2, _⟩ := processKernel_nonempty st k st2 out hne hok
  refine ⟨?_, headD_mem hne⟩
  rw [hst2]
  show canonicalId st.prevSeqId k.dir (pruneZero k.seqId) = _
  unfold canonicalId
  rw [hdir, if_neg (by decide)]

/-- C5 witness: `dir = bprop`, `seqId = [9, 4]` in stack order: the canonical
id is 9 (the head), even though 9 is not the numeric minimum. -/
theorem bprop_head_canonical_witness :
    (9:Int) = (pruneZero [9, 4]).headD 0 ∧
      (pruneZero [9, 4]).headD 0 ∈ pruneZero [9, 4] :=
  bprop_head_canonical initState ⟨[9, 4], bprop, ["y"], ["M"], []⟩
    ⟨9, 0, some ["y"]⟩ ⟨[9], [4], 0⟩ (by decide) rfl rfl

/-- C6: over a whole run, the marker ids consumed by kernels and the ids left
for the reconciler are disjoint and together cover the marker pool; moreover
a marker consumed by any kernel of a prefix of the run is already absent from
the pool (and stays absent), so it transitions to consumed at most once. -/
theorem marker_consumption (pool : List Nat) (ks : List Kernel)
    (hnd : pool.Nodup) :
    (∀ c ∈ consumedIds pool ks, c ∉ consumeRun pool ks) ∧
    (∀ c ∈ pool, c ∈ consumedIds pool ks ∨ c ∈ consumeRun pool ks) ∧
    (∀ (pre suf : List Kernel) (c : Nat), ks = pre ++ suf →
      (∃ k ∈ pre, c ∈ k.callid) → c ∉ consumeRun pool ks) := by
  have hrun := consumeRun_spec ks pool hnd
  have hcons : ∀ c, c ∈ consumedIds pool ks ↔
      c ∈ pool ∧ ∃ k ∈ ks, c ∈ k.callid := by
    intro c
    unfold consumedIds
    rw [List.mem_filter, List.any_eq_true]
    simp only [decide_eq_true_eq]
  refine ⟨?_, ?_, ?_⟩
  · intro c hc
    rw [hrun c]
    rintro ⟨_, hall⟩
    obtain ⟨_, k, hk, hck⟩ := (hcons c).mp hc
    exact hall k hk hck
  · intro c hcp
    by_cases h : ∃ k ∈ ks, c ∈ k.callid
    · exact Or.inl ((hcons c).mpr ⟨hcp, h⟩)
    · exact Or.inr ((hrun c).mpr ⟨hcp, fun k hk hck => h ⟨k, hk, hck⟩⟩)
  · rintro pre suf c hks ⟨k, hk, hck⟩
    rw [hrun c]
    rintro ⟨_, hall⟩
    exact hall k (hks ▸ List.mem_append_left suf hk) hck

/-- C6 witness: pool `[1, 2]`, one kernel consuming marker 1: marker 1 is
consumed and absent from the reconciler's pool, which is `[2]`. -/
theorem marker_consumption_witness : (1:Nat) ∉ ([2] : List Nat) :=
  (marker_consumption [1, 2] [⟨[], bprop, [], [], [1]⟩] (by decide)).1 1 (by decide)

/-- C7, counterexample: a kernel with empty `seqId` does not update the fold
state: after processing it, `prevOp` is still the initial sentinel, not the
kernel's op (and no canonical id was recorded). -/
theorem foldState_counterexample :
    processKernel initState ⟨[], bprop, ["conv"], ["M"], []⟩ =
      .ok (initState, ⟨[], [], 0⟩) ∧
    initState.prevOp ≠ some ["conv"] :=
  ⟨rfl, by decide⟩

/-- C7, amended: the fold state is updated exactly after every processed
kernel with non-empty `seqId` — `prevSeqId` becomes the canonical id,
`prevSubSeqId` the emitted `subSeqId`, `prevOp` the kernel's op — while a
kernel with empty `seqId` leaves the fold state unchanged. -/
theorem foldState_update (st : PState) (k : Kernel) (st2 : PState) (out : KOut)
    (hok : processKernel st k = .ok (st2, out)) :
    (k.seqId = [] → st2 = st) ∧
    (k.seqId ≠ [] →
      st2.prevSeqId = canonicalId st.prevSeqId k.dir (pruneZero k.seqId) ∧
      st2.prevSubSeqId = out.subSeqId ∧
      st2.prevOp = some k.op) := by
  constructor
  · intro hz
    rw [processKernel_empty st k (pruneZero_eq_nil.mpr hz)] at hok
    exact (Prod.mk.injEq .. ▸ Except.ok.inj hok).1.symm
  · intro hz
    have hne : pruneZero k.seqId ≠ [] := fun h => hz (pruneZero_eq_nil.mp h)
    obtain ⟨_, hst2, hout⟩ := processKernel_nonempty st k st2 out hne hok
    rw [hst2, hout]
    exact ⟨rfl, rfl, rfl⟩

/-- C7 witness: after an `fprop` kernel with `seqId = [5]` and op `["y"]`,
the fold state holds canonical id 5, the emitted `subSeqId`, and the op. -/
theorem foldState_update_witness :
    (5:Int) = canonicalId initState.prevSeqId fprop (pruneZero [5]) ∧
      (0:Int) = 0 ∧ (some ["y"] : Option (List String)) = some ["y"] :=
  (foldState_update initState ⟨[5], fprop, ["y"], ["M"], []⟩ ⟨5, 0, some ["y"]⟩
    ⟨[5], [], 0⟩ rfl).2 (by decide)

/-- C8: a kernel with non-empty `seqId` whose direction is neither `fprop`
nor `bprop` makes the run abort with the assertion error — no record for it
or any later kernel is produced — while any kernel whose direction is
`fprop` or `bprop` is processed without error. -/
theorem assert_direction (st st0 : PState) (k k2 : Kernel) (ks : List Kernel)
    (hne : pruneZero k.seqId ≠ [])
    (hb1 : k.dir ≠ fprop) (hb2 : k.dir ≠ bprop)
    (hgood : k2.dir = fprop ∨ k2.dir = bprop) :
    runKernels st (k :: ks) = .error assertMsg ∧
      ∃ r, processKernel st0 k2 = .ok r := by
  constructor
  · have hpk : processKernel st k = .error assertMsg := by
      unfold processKernel
      rw [if_neg hne, if_neg (by tauto)]
    unfold runKernels
    rw [hpk]
  · by_cases hz : pruneZero k2.seqId = []
    · exact ⟨_, processKernel_empty st0 k2 hz⟩
    · exact ⟨(⟨canonicalId st0.prevSeqId k2.dir (pruneZero k2.seqId),
          subSeqIdOf st0
            (canonicalId st0.prevSeqId k2.dir (pruneZero k2.seqId)) k2,
          some k2.op⟩,
        ⟨(pyPartition (canonicalId st0.prevSeqId k2.dir (pruneZero k2.seqId))
            (pruneZero k2.seqId)).1,
          altOut (canonicalId st0.prevSeqId k2.dir (pruneZero k2.seqId))
            (pruneZero k2.seqId),
          subSeqIdOf st0
            (canonicalId st0.prevSeqId k2.dir (pruneZero k2.seqId)) k2⟩),
        by unfold processKernel; rw [if_neg hz, if_pos hgood]⟩

/-- C8 witness: a kernel with `seqId = [3]` and direction `"oops"` aborts the
run with the assertion error, while an `fprop` kernel processes fine. -/
theorem assert_direction_witness :
    runKernels initState [⟨[3], "oops", ["y"], ["M"], []⟩] = .error assertMsg ∧
      ∃ r, processKernel initState ⟨[3], fprop, ["y"], ["M"], []⟩ = .ok r :=
  assert_direction initState initState ⟨[3], "oops", ["y"], ["M"], []⟩
    ⟨[3], fprop, ["y"], ["M"], []⟩ []
    (by decide) (by decide) (by decide) (Or.inl rfl)

/-- C9, counterexample: with two encapsulating markers both carrying a
snapshot, the reconciler keeps the snapshot of the *last* one in the returned
sequence (`["B"]`), not of the first one carrying a stack (`["A"]`). -/
theorem reconcileStack_counterexample :
    reconcileStack [⟨some ["A"]⟩, ⟨some ["B"]⟩] = ["B"] ∧
      (([⟨some ["A"]⟩, ⟨some ["B"]⟩] : List MarkerInfo).filterMap
          MarkerInfo.funcStack).headD [] = ["A"] ∧
      (["B"] : List String) ≠ ["A"] := by
  exact ⟨rfl, rfl, by decide⟩

/-- C9, amended: for every leftover marker, the reconciler's `mod`/`op`
call-stack source is the snapshot of the last marker carrying one in the
sequence returned by the encapsulating-markers query (empty if none does). -/
theorem reconcileStack_last (ems : List MarkerInfo) :
    reconcileStack ems = (ems.filterMap MarkerInfo.funcStack).getLastD [] :=
  foldl_stackStep ems []

/-- C10: starting from the initial fold state (`prevSeqId = -1`), any prefix
of kernels with empty `seqId` leaves the state initial, and the first kernel
with non-empty `seqId`, direction `fprop` and non-negative sequence ids gets
as canonical id the head of its own (pruned) `seqId` — the continuation
branch reusing `prevSeqId` is not taken, since `-1` is below every id. -/
theorem first_fprop_canonical (pre : List Kernel) (k : Kernel)
    (hpre : ∀ k0 ∈ pre, k0.seqId = ([] : List Int))
    (hne : k.seqId ≠ []) (hdir : k.dir = fprop)
    (hnn : ∀ s ∈ k.seqId, (0:Int) ≤ s) :
    (∃ outs, runKernels initState pre = .ok (initState, outs)) ∧
      canonicalId initState.prevSeqId k.dir (pruneZero k.seqId) =
        (pruneZero k.seqId).headD 0 ∧
      canonicalId initState.prevSeqId k.dir (pruneZero k.seqId) ∈ k.seqId := by
  have hs : pruneZero k.seqId ≠ [] := fun h => hne (pruneZero_eq_nil.mp h)
  have hnnL : ∀ s ∈ pruneZero k.seqId, (0:Int) ≤ s :=
    fun s hs2 => hnn s (pruneZero_subset s hs2)
  have hcan : canonicalId initState.prevSeqId k.dir (pruneZero k.seqId) =
      (pruneZero k.seqId).headD 0 := by
    unfold canonicalId
    rw [hdir, if_pos rfl]
    have hlast : initState.prevSeqId < (pruneZero k.seqId).getLastD 0 :=
      lt_of_lt_of_le (by decide) (hnnL _ (getLastD_mem _ 0 hs))
    rw [if_pos hlast]
    rw [List.filter_eq_self.mpr
      (fun a ha => decide_eq_true (lt_of_lt_of_le (by decide) (hnnL a ha)))]
  refine ⟨?_, hcan, ?_⟩
  · clear hcan hnnL hs hne hdir hnn
    induction pre with
    | nil => exact ⟨[], rfl⟩
    | cons k0 t ih =>
      have hz : pruneZero k0.seqId = [] :=
        pruneZero_eq_nil.mpr (hpre k0 (List.mem_cons_self k0 t))
      obtain ⟨outs, houts⟩ := ih fun x hx => hpre x (List.mem_cons_of_mem k0 hx)
      refine ⟨⟨pruneZero k0.seqId, [], 0⟩ :: outs, ?_⟩
      simp only [runKernels, processKernel_empty initState k0 hz, houts]
  · rw [hcan]
    exact pruneZero_subset _ (headD_mem hs)

/-- C10 witness: one empty-`seqId` kernel then `seqId = [5, 3]` with
direction `fprop`: the run's state is still initial and the canonical id is
the head 5 of the kernel's own `seqId`. -/
theorem first_fprop_canonical_witness :
    (∃ outs, runKernels initState [⟨[], bprop, ["y"], ["M"], []⟩] =
      .ok (initState, outs)) ∧
      canonicalId initState.prevSeqId fprop (pruneZero [5, 3]) =
        (pruneZero [5, 3]).headD 0 ∧
      canonicalId initState.prevSeqId fprop (pruneZero [5, 3]) ∈
        ([5, 3] : List Int) :=
  first_fprop_canonical [⟨[], bprop, ["y"], ["M"], []⟩]
    ⟨[5, 3], fprop, ["y"], ["M"], []⟩
    (by decide) (by decide) rfl (by decide)

end PyProf
